import Mathlib

/-!
Shallow embedding of the video-downloader application (`app.py`) and proofs
about it.  The Python source is translated function by function:

* pure string helpers (`guess_filename_from_url`, `_unescape_js_url`,
  `absolutize`, `extract_video_urls_from_html`) become functions over
  `List Char` / `String`;
* the streaming download (`fetch_video_bytes`) becomes a fold over the list
  of received chunks returning `Except`;
* the OCR/blur layer (`blur_boxes_in_frame`, `ocr_detect_boxes`,
  `auto_blur_bottom_text`) is modelled with the external libraries
  (OpenCV, easyocr) abstracted as oracle inputs: frames are pixel grids,
  `cv2.GaussianBlur` is an arbitrary function parameter, the easyocr reader
  is a per-frame list of raw detections, and `cv2.VideoCapture` /
  `cv2.VideoWriter` are summarised by the outcomes they produce
  (whether they open, which frames a read yields, whether a write raises).

Python integers are `Int` / `Nat`, Python floats that are only constructed,
compared and truncated (frame rates, confidences, ratios) are `ℚ`.
-/

/-! ### Python integer primitives -/

/-- The Python expression `n | 1` on an arbitrary-precision integer: two's
complement bitwise or with 1, i.e. set the lowest bit.  Written via parity so
that it evaluates by kernel reduction; `pyBitOrOne_eq_lor` certifies that it
agrees with the mathematical two's-complement or (`Int.lor`). -/
def pyBitOrOne (n : ℤ) : ℤ :=
  if n % 2 = 0 then n + 1 else n

theorem nat_or_one (m : ℕ) : m ||| 1 = 2 * (m / 2) + 1 := by
  conv_lhs => rw [← Nat.bit_decomp m]
  have h1 : (1 : ℕ) = Nat.bit true 0 := rfl
  rw [h1, Nat.lor_bit]
  simp [Nat.bit_val, Nat.div2_val]

theorem nat_ldiff_one (m : ℕ) : Nat.ldiff m 1 = 2 * (m / 2) := by
  conv_lhs => rw [← Nat.bit_decomp m]
  have h1 : (1 : ℕ) = Nat.bit true 0 := rfl
  rw [h1, Nat.ldiff_bit]
  have h2 : Nat.ldiff (Nat.div2 m) 0 = Nat.div2 m := by
    show Nat.bitwise _ _ 0 = _
    rw [Nat.bitwise_zero_right]
    simp
  rw [h2]
  simp [Nat.bit_val, Nat.div2_val]

theorem pyBitOrOne_eq_lor (n : ℤ) : pyBitOrOne n = Int.lor n 1 := by
  cases n with
  | ofNat m =>
    show pyBitOrOne (Int.ofNat m) = Int.ofNat (m ||| 1)
    rw [nat_or_one]
    unfold pyBitOrOne
    simp only [Int.ofNat_eq_coe]
    split <;> omega
  | negSucc m =>
    show pyBitOrOne (Int.negSucc m) = Int.negSucc (Nat.ldiff m 1)
    rw [nat_ldiff_one]
    unfold pyBitOrOne
    simp only [Int.negSucc_eq]
    split <;> omega

/-- Truncation toward zero, as Python's `int(...)` applied to a float. -/
def pyTrunc (q : ℚ) : ℤ :=
  if 0 ≤ q then ⌊q⌋ else -⌊-q⌋

/-! ### Frame Redactor (`blur_boxes_in_frame`) -/

/-- A decoded frame: pixel value at (row, column).  Only equality of pixel
values matters to the claims, so the pixel type is `ℤ`. -/
abbrev Img : Type := ℕ → ℕ → ℤ

/-- A bounding box as the 4-tuple `(x0, y0, x1, y1)` carried around by the
Python code (arbitrary, possibly negative integers before clamping). -/
structure PyBox where
  x0 : ℤ
  y0 : ℤ
  x1 : ℤ
  y1 : ℤ
deriving DecidableEq

/-- The kernel size the blur actually uses: `k = max(3, ksize | 1)`. -/
def kernelUsed (ksize : ℤ) : ℤ :=
  max 3 (pyBitOrOne ksize)

/-- One iteration of the `for (x0, y0, x1, y1) in boxes` loop of
`blur_boxes_in_frame`: clamp the box to the frame, and when the clamped area
is positive overwrite the rectangle with the Gaussian-blurred region of
interest.  `gauss` abstracts `cv2.GaussianBlur(roi, (k, k), 0)`: it receives
the kernel size, the region height and width, and the region (in local
coordinates) and returns the blurred region. -/
def blurOneBox (gauss : ℤ → ℕ → ℕ → Img → Img) (W H : ℕ) (ksize : ℤ)
    (frame : Img) (b : PyBox) : Img :=
  let x0 : ℤ := max 0 b.x0
  let y0 : ℤ := max 0 b.y0
  let x1 : ℤ := min (W : ℤ) b.x1
  let y1 : ℤ := min (H : ℤ) b.y1
  if x0 < x1 ∧ y0 < y1 then
    let xn := x0.toNat
    let yn := y0.toNat
    let roi : Img := fun r c => frame (yn + r) (xn + c)
    let blurred := gauss (kernelUsed ksize) (y1.toNat - yn) (x1.toNat - xn) roi
    fun y x =>
      if yn ≤ y ∧ y < y1.toNat ∧ xn ≤ x ∧ x < x1.toNat then
        blurred (y - yn) (x - xn)
      else frame y x
  else frame

/-- `blur_boxes_in_frame(frame, boxes, ksize)`: the boxes are applied in
order, mutating the frame in place (modelled as a fold). -/
def blur_boxes_in_frame (gauss : ℤ → ℕ → ℕ → Img → Img) (W H : ℕ)
    (frame : Img) (boxes : List PyBox) (ksize : ℤ) : Img :=
  boxes.foldl (blurOneBox gauss W H ksize) frame

/-- The clamped box has positive area (the `if x1 > x0 and y1 > y0` guard). -/
def posArea (W H : ℕ) (b : PyBox) : Prop :=
  max 0 b.x0 < min (W : ℤ) b.x1 ∧ max 0 b.y0 < min (H : ℤ) b.y1

/-- Pixel (row `y`, column `x`) lies inside the clamped box. -/
def inClampedBox (W H : ℕ) (b : PyBox) (y x : ℕ) : Prop :=
  (max 0 b.y0).toNat ≤ y ∧ y < (min (H : ℤ) b.y1).toNat ∧
  (max 0 b.x0).toNat ≤ x ∧ x < (min (W : ℤ) b.x1).toNat

instance (W H : ℕ) (b : PyBox) : Decidable (posArea W H b) := by
  unfold posArea; infer_instance

instance (W H : ℕ) (b : PyBox) (y x : ℕ) : Decidable (inClampedBox W H b y x) := by
  unfold inClampedBox; infer_instance

theorem blurOneBox_outside (gauss : ℤ → ℕ → ℕ → Img → Img) (W H : ℕ)
    (ksize : ℤ) (frame : Img) (b : PyBox) (y x : ℕ)
    (h : posArea W H b → ¬ inClampedBox W H b y x) :
    blurOneBox gauss W H ksize frame b y x = frame y x := by
  by_cases hp : posArea W H b
  · have hin := h hp
    unfold posArea at hp
    unfold inClampedBox at hin
    simp only [blurOneBox]
    rw [if_pos hp]
    exact if_neg hin
  · unfold posArea at hp
    simp only [blurOneBox]
    rw [if_neg hp]

theorem blurOneBox_degenerate (gauss : ℤ → ℕ → ℕ → Img → Img) (W H : ℕ)
    (ksize : ℤ) (frame : Img) (b : PyBox) (h : ¬ posArea W H b) :
    blurOneBox gauss W H ksize frame b = frame := by
  unfold posArea at h
  simp only [blurOneBox]
  rw [if_neg h]

theorem blur_foldl_outside (gauss : ℤ → ℕ → ℕ → Img → Img) (W H : ℕ)
    (ksize : ℤ) (y x : ℕ) :
    ∀ (boxes : List PyBox) (frame : Img),
      (∀ b ∈ boxes, posArea W H b → ¬ inClampedBox W H b y x) →
      blur_boxes_in_frame gauss W H frame boxes ksize y x = frame y x := by
  intro boxes
  induction boxes with
  | nil => intro frame _; rfl
  | cons b bs ih =>
    intro frame h
    show blur_boxes_in_frame gauss W H (blurOneBox gauss W H ksize frame b)
      bs ksize y x = frame y x
    rw [ih _ (fun b' hb' => h b' (List.mem_cons_of_mem _ hb'))]
    exact blurOneBox_outside gauss W H ksize frame b y x (h b (List.mem_cons_self _ _))

/-- C5: pixels strictly outside every clamped, positive-area box are
unchanged by `blur_boxes_in_frame`, and a box whose clamped area is not
positive (in particular one entirely out of the frame bounds) leaves the
frame entirely unchanged. -/
theorem blur_boxes_in_frame_outside_unchanged :
    (∀ (gauss : ℤ → ℕ → ℕ → Img → Img) (W H : ℕ) (frame : Img)
       (boxes : List PyBox) (ksize : ℤ) (y x : ℕ),
       (∀ b ∈ boxes, posArea W H b → ¬ inClampedBox W H b y x) →
       blur_boxes_in_frame gauss W H frame boxes ksize y x = frame y x) ∧
    (∀ (gauss : ℤ → ℕ → ℕ → Img → Img) (W H : ℕ) (frame : Img)
       (b : PyBox) (ksize : ℤ),
       ¬ posArea W H b →
       blur_boxes_in_frame gauss W H frame [b] ksize = frame) := by
  constructor
  · intro gauss W H frame boxes ksize y x h
    exact blur_foldl_outside gauss W H ksize y x boxes frame h
  · intro gauss W H frame b ksize h
    show blurOneBox gauss W H ksize frame b = frame
    exact blurOneBox_degenerate gauss W H ksize frame b h

/-- Witness for C5 at a concrete frame, an interior box and a fully
out-of-bounds box. -/
theorem blur_boxes_in_frame_outside_unchanged_witness :
    blur_boxes_in_frame (fun _ _ _ _ => fun _ _ => 99) 4 4
      (fun (y x : ℕ) => 10 * (y : ℤ) + (x : ℤ)) [⟨1, 1, 3, 3⟩] 27 0 0 =
      (fun (y x : ℕ) => 10 * (y : ℤ) + (x : ℤ) : Img) 0 0 ∧
    blur_boxes_in_frame (fun _ _ _ _ => fun _ _ => 99) 4 4
      (fun (y x : ℕ) => 10 * (y : ℤ) + (x : ℤ)) [⟨-5, -5, -1, -1⟩] 27 =
      (fun (y x : ℕ) => 10 * (y : ℤ) + (x : ℤ)) := by
  constructor
  · exact blur_boxes_in_frame_outside_unchanged.1
      (fun _ _ _ _ => fun _ _ => 99) 4 4 (fun (y x : ℕ) => 10 * (y : ℤ) + (x : ℤ))
      [⟨1, 1, 3, 3⟩] 27 0 0 (by decide)
  · exact blur_boxes_in_frame_outside_unchanged.2
      (fun _ _ _ _ => fun _ _ => 99) 4 4 (fun (y x : ℕ) => 10 * (y : ℤ) + (x : ℤ))
      ⟨-5, -5, -1, -1⟩ 27 (by decide)

/-- C7: the kernel size actually used by the blur, `max(3, ksize | 1)`, is
an odd integer that is at least 3, for every integer input; the first
conjunct certifies that the executable model agrees with the
two's-complement bitwise or. -/
theorem kernelUsed_odd_and_ge_three (ksize : ℤ) :
    kernelUsed ksize = max 3 (Int.lor ksize 1) ∧
    Odd (kernelUsed ksize) ∧ 3 ≤ kernelUsed ksize := by
  refine ⟨by rw [kernelUsed, pyBitOrOne_eq_lor], ?_, le_max_left _ _⟩
  rw [Int.odd_iff]
  unfold kernelUsed
  rcases max_cases 3 (pyBitOrOne ksize) with ⟨h1, _⟩ | ⟨h1, _⟩ <;> rw [h1] <;>
    unfold pyBitOrOne at * <;> split_ifs at * <;> omega

/-! ### Text Region Detector (`ocr_detect_boxes`) -/

/-- One raw detection from `reader.readtext(frame, detail=1)`: a polygon,
the recognized text, and a confidence (possibly `None`).  The polygon's
vertex coordinates are recorded after Python's `int(...)` truncation. -/
structure RawDetection where
  poly : List (ℤ × ℤ)
  text : String
  conf : Option ℚ
deriving DecidableEq

/-- The filter `if conf is None or conf < conf_th: continue`, as the
acceptance test of a raw detection. -/
def detAccept (conf_th : ℚ) (d : RawDetection) : Bool :=
  match d.conf with
  | none => false
  | some c => decide (¬ c < conf_th)

/-- The axis-aligned box `(min(xs), min(ys), max(xs), max(ys))` of a
detection's polygon; `none` when the polygon is empty (Python's `min([])`
raises `ValueError`). -/
def detBox (d : RawDetection) : Option (ℤ × ℤ × ℤ × ℤ) :=
  match (d.poly.map Prod.fst).min?, (d.poly.map Prod.snd).min?,
        (d.poly.map Prod.fst).max?, (d.poly.map Prod.snd).max? with
  | some a, some b, some c, some e => some (a, b, c, e)
  | _, _, _, _ => none

/-- `ocr_detect_boxes(frame, reader, conf_th)` after the external
`reader.readtext` call has produced `results`: keep the detections whose
confidence is defined and not below the threshold, and emit the bounding
box of each polygon in order. -/
def ocr_detect_boxes (results : List RawDetection) (conf_th : ℚ) :
    Except Unit (List (ℤ × ℤ × ℤ × ℤ)) :=
  match results with
  | [] => .ok []
  | d :: rest =>
    if detAccept conf_th d then
      match detBox d with
      | some b => (ocr_detect_boxes rest conf_th).map (fun bs => b :: bs)
      | none => .error ()
    else ocr_detect_boxes rest conf_th

/-- Total version of `detBox` for nonempty polygons. -/
def boxOfPoly (d : RawDetection) : ℤ × ℤ × ℤ × ℤ :=
  (((d.poly.map Prod.fst).min?).getD 0, ((d.poly.map Prod.snd).min?).getD 0,
   ((d.poly.map Prod.fst).max?).getD 0, ((d.poly.map Prod.snd).max?).getD 0)

/-- Boolean form of: the detection's confidence, when defined, is at most 1. -/
def confAtMostOne (d : RawDetection) : Bool :=
  match d.conf with
  | none => true
  | some c => decide (c ≤ 1)

theorem detBox_of_ne_nil (d : RawDetection) (h : d.poly ≠ []) :
    detBox d = some (boxOfPoly d) := by
  rcases hp : d.poly with _ | ⟨p, ps⟩
  · exact absurd hp h
  · unfold detBox boxOfPoly
    rw [hp]
    rfl

theorem detAccept_iff (conf_th : ℚ) (d : RawDetection) :
    detAccept conf_th d = true ↔ ∃ c, d.conf = some c ∧ conf_th ≤ c := by
  unfold detAccept
  rcases hc : d.conf with _ | c
  · simp
  · simp [not_lt]

theorem ocr_detect_boxes_filter (conf_th : ℚ) :
    ∀ results : List RawDetection, (∀ d ∈ results, d.poly ≠ []) →
      ocr_detect_boxes results conf_th =
        .ok ((results.filter (detAccept conf_th)).map boxOfPoly) := by
  intro results
  induction results with
  | nil => intro _; rfl
  | cons d rest ih =>
    intro h
    have hrest := ih (fun d' hd' => h d' (List.mem_cons_of_mem _ hd'))
    show (if detAccept conf_th d then _ else _) = _
    by_cases ha : detAccept conf_th d
    · rw [if_pos ha, detBox_of_ne_nil d (h d (List.mem_cons_self _ _)), hrest]
      rw [List.filter_cons_of_pos ha]
      rfl
    · rw [if_neg ha, hrest, List.filter_cons_of_neg ha]

theorem ocr_detect_boxes_empty_of_high_threshold (conf_th : ℚ)
    (hth : 1 < conf_th) :
    ∀ results : List RawDetection, (∀ d ∈ results, confAtMostOne d = true) →
      ocr_detect_boxes results conf_th = .ok [] := by
  intro results
  induction results with
  | nil => intro _; rfl
  | cons d rest ih =>
    intro h
    have hd := h d (List.mem_cons_self _ _)
    have ha : detAccept conf_th d = false := by
      unfold confAtMostOne at hd
      unfold detAccept
      rcases hc : d.conf with _ | c
      · rfl
      · rw [hc] at hd
        simp only [decide_eq_true_eq] at hd
        simp only [decide_eq_false_iff_not, not_not]
        exact lt_of_le_of_lt hd hth
    show (if detAccept conf_th d then _ else _) = _
    rw [ha]
    exact ih (fun d' hd' => h d' (List.mem_cons_of_mem _ hd'))

/-- C6: the detector emits one bounding box (the min/max box of the
polygon) for a raw detection exactly when its confidence is defined and at
least the threshold, in the model's order; and when the threshold exceeds 1
while every defined confidence is at most 1, the output is empty. -/
theorem ocr_detect_boxes_spec (results : List RawDetection) (conf_th : ℚ) :
    ((∀ d ∈ results, d.poly ≠ []) →
      ocr_detect_boxes results conf_th =
        .ok ((results.filter (detAccept conf_th)).map boxOfPoly)) ∧
    (∀ d, detAccept conf_th d = true ↔ ∃ c, d.conf = some c ∧ conf_th ≤ c) ∧
    (1 < conf_th → (∀ d ∈ results, confAtMostOne d = true) →
      ocr_detect_boxes results conf_th = .ok []) :=
  ⟨fun h => ocr_detect_boxes_filter conf_th results h,
   fun d => detAccept_iff conf_th d,
   fun hth h => ocr_detect_boxes_empty_of_high_threshold conf_th hth results h⟩

instance (ε α : Type) [DecidableEq ε] [DecidableEq α] :
    DecidableEq (Except ε α) := fun
  | .error a, .error b =>
    match decEq a b with
    | isTrue h => isTrue (by rw [h])
    | isFalse h => isFalse (by intro hh; cases hh; exact h rfl)
  | .error _, .ok _ => isFalse (by intro hh; cases hh)
  | .ok _, .error _ => isFalse (by intro hh; cases hh)
  | .ok a, .ok b =>
    match decEq a b with
    | isTrue h => isTrue (by rw [h])
    | isFalse h => isFalse (by intro hh; cases hh; exact h rfl)

/-- Witness for C6: a single detection with confidence 1 and polygon
corners (0,0) and (4,2) passes a threshold of 0 and produces its bounding
box, and a threshold of 2 (greater than 1) empties the output. -/
theorem ocr_detect_boxes_spec_witness :
    ocr_detect_boxes [⟨[(0, 0), (4, 2)], "hi", some 1⟩] 0 =
      .ok [(0, 0, 4, 2)] ∧
    ocr_detect_boxes [⟨[(0, 0), (4, 2)], "hi", some 1⟩] 2 =
      .ok [] := by
  constructor
  · have h := (ocr_detect_boxes_spec [⟨[(0, 0), (4, 2)], "hi", some 1⟩]
      0).1 (by decide)
    rw [h]
    decide
  · exact (ocr_detect_boxes_spec [⟨[(0, 0), (4, 2)], "hi", some 1⟩]
      2).2.2 (by decide) (by decide)

/-! ### Video Byte Retrieval (`fetch_video_bytes`) -/

/-- Failure modes of the download: `r.raise_for_status()` (or a network
error) and the `RuntimeError` raised when the buffer exceeds `max_bytes`. -/
inductive FetchError where
  | httpError : FetchError
  | sizeExceeded : FetchError
deriving DecidableEq

/-- The default `max_bytes = 800 * 1024 * 1024` (800 MiB). -/
def defaultMaxBytes : ℕ := 800 * 1024 * 1024

/-- The streaming loop of `fetch_video_bytes`: empty chunks are skipped,
every other chunk is appended to the buffer, and the loop raises as soon as
`buf.tell() > max_bytes`. -/
def fetchLoop (maxBytes : ℕ) (buf : List ℕ) :
    List (List ℕ) → Except FetchError (List ℕ)
  | [] => .ok buf
  | c :: rest =>
    if c = [] then fetchLoop maxBytes buf rest
    else
      let buf' := buf ++ c
      if maxBytes < buf'.length then .error .sizeExceeded
      else fetchLoop maxBytes buf' rest

/-- The response stream handed to `fetch_video_bytes`: whether the HTTP
status was a success, and the byte chunks yielded by `iter_content`. -/
structure HttpResponse where
  statusOk : Bool
  chunks : List (List ℕ)

/-- `fetch_video_bytes(video_url, page_url, max_bytes)` over an abstract
response: non-success status raises, otherwise the chunks are accumulated
in memory subject to the size cap. -/
def fetch_video_bytes (r : HttpResponse) (maxBytes : ℕ) :
    Except FetchError (List ℕ) :=
  if r.statusOk then fetchLoop maxBytes [] r.chunks else .error .httpError

theorem fetchLoop_characterization (maxBytes : ℕ) :
    ∀ (chunks : List (List ℕ)) (buf : List ℕ), buf.length ≤ maxBytes →
      fetchLoop maxBytes buf chunks =
        if buf.length + chunks.join.length ≤ maxBytes then .ok (buf ++ chunks.join)
        else .error .sizeExceeded := by
  intro chunks
  induction chunks with
  | nil =>
    intro buf hb
    simp [fetchLoop, hb]
  | cons c rest ih =>
    intro buf hb
    show (if c = [] then _ else _) = _
    by_cases hc : c = []
    · rw [if_pos hc, ih buf hb, hc]
      simp
    · rw [if_neg hc]
      simp only []
      by_cases hover : maxBytes < (buf ++ c).length
      · rw [if_pos hover]
        rw [List.length_append] at hover
        have : ¬ (buf.length + (c :: rest).join.length ≤ maxBytes) := by
          simp only [List.join_cons, List.length_append]
          omega
        rw [if_neg this]
      · rw [if_neg hover]
        rw [List.length_append] at hover
        rw [ih (buf ++ c) (by rw [List.length_append]; omega)]
        simp only [List.join_cons, List.length_append, List.append_assoc]
        rw [Nat.add_assoc]

theorem join_take_length_le (chunks : List (List ℕ)) (k : ℕ) :
    ((chunks.take k).join).length ≤ chunks.join.length := by
  induction chunks generalizing k with
  | nil => simp
  | cons c rest ih =>
    cases k with
    | zero => simp
    | succ k =>
      simp only [List.take_succ_cons, List.join_cons, List.length_append]
      exact Nat.add_le_add_left (ih k) _

/-- C9: with a successful HTTP status, `fetch_video_bytes` returns the
concatenation of the streamed chunks exactly when no prefix of the stream
exceeds `maxBytes`, and fails with the size-exceeded error exactly when the
cumulative streamed size ever exceeds `maxBytes`; the default cap is
`800 * 1024 * 1024` bytes. -/
theorem fetch_video_bytes_size_cap (r : HttpResponse) (maxBytes : ℕ)
    (hok : r.statusOk = true) :
    (fetch_video_bytes r maxBytes = .ok r.chunks.join ↔
      ∀ k, ((r.chunks.take k).join).length ≤ maxBytes) ∧
    (fetch_video_bytes r maxBytes = .error .sizeExceeded ↔
      ∃ k, maxBytes < ((r.chunks.take k).join).length) ∧
    (∀ buf, fetch_video_bytes r maxBytes = .ok buf → buf = r.chunks.join) ∧
    defaultMaxBytes = 800 * 1024 * 1024 := by
  have hfetch : fetch_video_bytes r maxBytes =
      if r.chunks.join.length ≤ maxBytes then .ok r.chunks.join
      else .error .sizeExceeded := by
    unfold fetch_video_bytes
    rw [hok, if_pos rfl, fetchLoop_characterization maxBytes r.chunks []
      (by simp)]
    simp
  have htot : (∀ k, ((r.chunks.take k).join).length ≤ maxBytes) ↔
      r.chunks.join.length ≤ maxBytes := by
    constructor
    · intro h
      have := h r.chunks.length
      rwa [List.take_length] at this
    · intro h k
      exact le_trans (join_take_length_le r.chunks k) h
  refine ⟨?_, ?_, ?_, rfl⟩
  · rw [hfetch, htot]
    by_cases h : r.chunks.join.length ≤ maxBytes
    · simp [h]
    · simp [h]
  · rw [hfetch]
    constructor
    · intro h
      by_cases hle : r.chunks.join.length ≤ maxBytes
      · rw [if_pos hle] at h
        cases h
      · exact ⟨r.chunks.length, by rw [List.take_length]; omega⟩
    · intro ⟨k, hk⟩
      have : ¬ r.chunks.join.length ≤ maxBytes := by
        have := join_take_length_le r.chunks k
        omega
      rw [if_neg this]
  · intro buf h
    rw [hfetch] at h
    by_cases hle : r.chunks.join.length ≤ maxBytes
    · rw [if_pos hle] at h
      cases h
      rfl
    · rw [if_neg hle] at h
      cases h

/-- Witness for C9: a three-byte stream under a 2-byte cap is rejected as
size-exceeded, and under a 4-byte cap is returned whole. -/
theorem fetch_video_bytes_size_cap_witness :
    fetch_video_bytes ⟨true, [[7, 7], [7]]⟩ 2 = .error .sizeExceeded ∧
    fetch_video_bytes ⟨true, [[7, 7], [7]]⟩ 4 = .ok [7, 7, 7] := by
  constructor
  · exact (fetch_video_bytes_size_cap ⟨true, [[7, 7], [7]]⟩ 2 rfl).2.1.mpr
      ⟨2, by decide⟩
  · exact (fetch_video_bytes_size_cap ⟨true, [[7, 7], [7]]⟩ 4 rfl).1.mpr
      (fun k => le_trans (join_take_length_le [[7, 7], [7]] k) (by decide))

/-! ### Caption-Removal Pipeline (`auto_blur_bottom_text`)

The OpenCV capture/writer pair and the easyocr reader are abstracted as an
environment: whether the capture and each writer open, the sequence of
`cap.read()` outcomes, the raw detections `reader.readtext` yields on the
cropped band of each frame index (the band crop itself only selects the
pixels the external OCR sees, so the oracle is indexed by frame number),
and whether each `out.write` succeeds.  `sample_step = 0` would raise
`ZeroDivisionError` in Python and is outside the model (all sampling
theorems assume `1 ≤ sample_step`). -/

/-- One `cap.read()` outcome: a decoded frame, or an exception.  End of
stream (`ret == False`) is the end of the list. -/
inductive ReadItem where
  | frame (f : Img) : ReadItem
  | exn : ReadItem

/-- The abstract environment of one `auto_blur_bottom_text` invocation. -/
structure CaptureEnv where
  ocrOk : Bool
  opensOk : Bool
  fps0 : ℚ
  width : ℕ
  height : ℕ
  avc1Ok : Bool
  mp4vOk : Bool
  reads : List ReadItem
  readtext : ℕ → Except Unit (List RawDetection)
  writeOk : ℕ → Bool

/-- The keyword parameters of `auto_blur_bottom_text`. -/
structure BlurConfig where
  bottom_ratio : ℚ
  sample_step : ℕ
  conf_th : ℚ
  blur_ksize : ℤ

inductive PipelineError where
  | ocrUnavailable : PipelineError
  | openFail : PipelineError
  | encoderFail : PipelineError
  | readExn : PipelineError
  | detectExn : PipelineError
  | writeExn : PipelineError
deriving DecidableEq

/-- Trace record of one loop iteration: whether the detector was invoked on
this frame, and the cached box set the redactor applied to it. -/
structure FrameRec where
  sampled : Bool
  boxesUsed : List PyBox
deriving DecidableEq

/-- The final state of one invocation: its outcome and, for the resource
claims, whether `cap.release()` / `out.release()` ran, plus the
`cv2.VideoWriter(dst, fourcc, fps, (w, h))` construction attempts. -/
structure PipelineResult where
  result : Except PipelineError (List FrameRec)
  capReleased : Bool
  outReleased : Bool
  encoderAttempts : List (String × ℕ × ℕ × ℚ)
deriving DecidableEq

/-- `band_y0 = int(h * (1.0 - bottom_ratio))`. -/
def bandTop (h : ℕ) (bottom_ratio : ℚ) : ℤ :=
  pyTrunc ((h : ℚ) * (1 - bottom_ratio))

/-- The boxes cached on a sampled frame `i`: the external `readtext`
results filtered by `ocr_detect_boxes`, each box's y-coordinates translated
by the band's row offset. -/
def sampledBoxes (env : CaptureEnv) (cfg : BlurConfig) (bandY0 : ℤ) (i : ℕ) :
    Except Unit (List PyBox) :=
  ((env.readtext i).bind (fun dets => ocr_detect_boxes dets cfg.conf_th)).map
    (fun bs => bs.map (fun b => PyBox.mk b.1 (b.2.1 + bandY0) b.2.2.1 (b.2.2.2 + bandY0)))

/-- The `while True` frame loop: read, sample-or-reuse, redact, write. -/
def runFrames (env : CaptureEnv) (cfg : BlurConfig) (bandY0 : ℤ) :
    List ReadItem → ℕ → List PyBox → Except PipelineError (List FrameRec)
  | [], _, _ => .ok []
  | .exn :: _, _, _ => .error .readExn
  | .frame _ :: rest, idx, cached =>
    if idx % cfg.sample_step = 0 then
      match sampledBoxes env cfg bandY0 idx with
      | .error _ => .error .detectExn
      | .ok cached' =>
        if env.writeOk idx then
          (runFrames env cfg bandY0 rest (idx + 1) cached').map
            (fun tr => ⟨true, cached'⟩ :: tr)
        else .error .writeExn
    else
      if env.writeOk idx then
        (runFrames env cfg bandY0 rest (idx + 1) cached).map
          (fun tr => ⟨false, cached⟩ :: tr)
      else .error .writeExn

/-- The part of the pipeline after an encoder has been selected: run the
loop; on success both handles are released (`cap.release(); out.release()`),
while an exception propagates with neither release executed (there is no
try/finally around the loop in the source). -/
def runAfterEncoder (env : CaptureEnv) (cfg : BlurConfig)
    (attempts : List (String × ℕ × ℕ × ℚ)) : PipelineResult :=
  match runFrames env cfg (bandTop env.height cfg.bottom_ratio) env.reads 0 [] with
  | .ok tr => ⟨.ok tr, true, true, attempts⟩
  | .error e => ⟨.error e, false, false, attempts⟩

/-- `auto_blur_bottom_text(input_bytes, ...)`: OCR availability gate, open
the capture, read fps (0 falls back to 25.0) and dimensions, try the avc1
encoder then the mp4v fallback (releasing the capture if both fail), then
process the frames. -/
def auto_blur_bottom_text (env : CaptureEnv) (cfg : BlurConfig) : PipelineResult :=
  if env.ocrOk = false then ⟨.error .ocrUnavailable, false, false, []⟩
  else if env.opensOk = false then ⟨.error .openFail, false, false, []⟩
  else
    let fps := if env.fps0 = 0 then 25 else env.fps0
    if env.avc1Ok then
      runAfterEncoder env cfg [("avc1", env.width, env.height, fps)]
    else if env.mp4vOk then
      runAfterEncoder env cfg
        [("avc1", env.width, env.height, fps), ("mp4v", env.width, env.height, fps)]
    else
      ⟨.error .encoderFail, true, false,
        [("avc1", env.width, env.height, fps), ("mp4v", env.width, env.height, fps)]⟩

theorem runFrames_error_mem (env : CaptureEnv) (cfg : BlurConfig) (bandY0 : ℤ) :
    ∀ (items : List ReadItem) (idx : ℕ) (cached : List PyBox) (e : PipelineError),
      runFrames env cfg bandY0 items idx cached = .error e →
      e = .readExn ∨ e = .detectExn ∨ e = .writeExn := by
  intro items
  induction items with
  | nil => intro idx cached e h; cases h
  | cons item rest ih =>
    intro idx cached e h
    cases item with
    | exn => cases h; left; rfl
    | frame f =>
      rw [runFrames] at h
      split at h
      · split at h
        · cases h
          right; left; rfl
        · rename_i bs heq
          split at h
          · rcases hr : runFrames env cfg bandY0 rest (idx + 1) bs with e' | tr'
            · rw [hr] at h
              simp only [Except.map] at h
              cases h
              exact ih (idx + 1) bs _ hr
            · rw [hr] at h
              simp only [Except.map] at h
              cases h
          · cases h
            right; right; rfl
      · split at h
        · rcases hr : runFrames env cfg bandY0 rest (idx + 1) cached with e' | tr'
          · rw [hr] at h
            simp only [Except.map] at h
            cases h
            exact ih (idx + 1) cached _ hr
          · rw [hr] at h
            simp only [Except.map] at h
            cases h
        · cases h
          right; right; rfl

theorem runAfterEncoder_release (env : CaptureEnv) (cfg : BlurConfig)
    (attempts : List (String × ℕ × ℕ × ℚ)) :
    (∀ tr, (runAfterEncoder env cfg attempts).result = .ok tr →
      (runAfterEncoder env cfg attempts).capReleased = true ∧
      (runAfterEncoder env cfg attempts).outReleased = true) ∧
    (∀ e, (runAfterEncoder env cfg attempts).result = .error e →
      (e = .readExn ∨ e = .detectExn ∨ e = .writeExn) ∧
      (runAfterEncoder env cfg attempts).capReleased = false ∧
      (runAfterEncoder env cfg attempts).outReleased = false) := by
  unfold runAfterEncoder
  rcases hr : runFrames env cfg (bandTop env.height cfg.bottom_ratio)
      env.reads 0 [] with e' | tr'
  · constructor
    · intro tr htr
      cases htr
    · intro e he
      cases he
      exact ⟨runFrames_error_mem env cfg _ env.reads 0 [] _ hr, rfl, rfl⟩
  · constructor
    · intro tr htr
      exact ⟨rfl, rfl⟩
    · intro e he
      cases he

theorem runAfterEncoder_attempts (env : CaptureEnv) (cfg : BlurConfig)
    (attempts : List (String × ℕ × ℕ × ℚ)) :
    (runAfterEncoder env cfg attempts).encoderAttempts = attempts := by
  unfold runAfterEncoder
  rcases hr : runFrames env cfg (bandTop env.height cfg.bottom_ratio)
      env.reads 0 [] with e' | tr' <;> rfl

/-- C2 (amended): on normal completion both the decode and encode handles
are released; when both encoder attempts fail only the decode handle is
released before the error; but an exception from a per-frame read,
detection, or write propagates without releasing either handle. -/
theorem auto_blur_release (env : CaptureEnv) (cfg : BlurConfig) :
    (∀ tr, (auto_blur_bottom_text env cfg).result = .ok tr →
      (auto_blur_bottom_text env cfg).capReleased = true ∧
      (auto_blur_bottom_text env cfg).outReleased = true) ∧
    ((auto_blur_bottom_text env cfg).result = .error .encoderFail →
      (auto_blur_bottom_text env cfg).capReleased = true ∧
      (auto_blur_bottom_text env cfg).outReleased = false) ∧
    (∀ e, (e = .readExn ∨ e = .detectExn ∨ e = .writeExn) →
      (auto_blur_bottom_text env cfg).result = .error e →
      (auto_blur_bottom_text env cfg).capReleased = false ∧
      (auto_blur_bottom_text env cfg).outReleased = false) := by
  simp only [auto_blur_bottom_text]
  by_cases h1 : env.ocrOk = false
  · rw [if_pos h1]
    refine ⟨fun tr htr => by injection htr, fun he => ?_, fun e hmem he => ?_⟩
    · injection he with he
      cases he
    · injection he with he
      subst he
      exact absurd hmem (by decide)
  · rw [if_neg h1]
    by_cases h2 : env.opensOk = false
    · rw [if_pos h2]
      refine ⟨fun tr htr => by injection htr, fun he => ?_, fun e hmem he => ?_⟩
      · injection he with he
        cases he
      · injection he with he
        subst he
        exact absurd hmem (by decide)
    · rw [if_neg h2]
      by_cases ha : env.avc1Ok = true
      · rw [if_pos ha]
        have h := runAfterEncoder_release env cfg
          [("avc1", env.width, env.height, if env.fps0 = 0 then 25 else env.fps0)]
        refine ⟨h.1, fun he => ?_, fun e hmem he => ⟨(h.2 e he).2.1, (h.2 e he).2.2⟩⟩
        rcases (h.2 _ he).1 with hh | hh | hh <;> cases hh
      · rw [if_neg ha]
        by_cases hm : env.mp4vOk = true
        · rw [if_pos hm]
          have h := runAfterEncoder_release env cfg
            [("avc1", env.width, env.height, if env.fps0 = 0 then 25 else env.fps0),
             ("mp4v", env.width, env.height, if env.fps0 = 0 then 25 else env.fps0)]
          refine ⟨h.1, fun he => ?_, fun e hmem he => ⟨(h.2 e he).2.1, (h.2 e he).2.2⟩⟩
          rcases (h.2 _ he).1 with hh | hh | hh <;> cases hh
        · rw [if_neg hm]
          refine ⟨fun tr htr => by injection htr, fun _ => ⟨rfl, rfl⟩,
            fun e hmem he => ?_⟩
          injection he with he
          subst he
          exact absurd hmem (by decide)

/-- An environment in which everything opens but the detector raises on the
first frame. -/
def envDetectFails : CaptureEnv :=
  ⟨true, true, 25, 4, 4, true, true, [.frame (fun _ _ => 0)],
   fun _ => .error (), fun _ => true⟩

/-- An environment in which every step of a one-frame run succeeds. -/
def envAllOk : CaptureEnv :=
  ⟨true, true, 25, 4, 4, true, true, [.frame (fun _ _ => 0)],
   fun _ => .ok [], fun _ => true⟩

/-- An environment in which neither encoder opens. -/
def envEncFail : CaptureEnv :=
  ⟨true, true, 30, 8, 6, false, false, [], fun _ => .ok [], fun _ => true⟩

/-- Default-like configuration with whole-number rationals. -/
def cfgBase : BlurConfig := ⟨0, 2, 0, 27⟩

/-- C2 counterexample: with the capture and the encoder successfully opened,
an exception raised by the detector on frame 0 propagates while neither
`cap.release()` nor `out.release()` has run. -/
theorem auto_blur_release_counterexample :
    (auto_blur_bottom_text envDetectFails cfgBase).result =
      .error .detectExn ∧
    (auto_blur_bottom_text envDetectFails cfgBase).capReleased = false ∧
    (auto_blur_bottom_text envDetectFails cfgBase).outReleased = false ∧
    envDetectFails.opensOk = true ∧ envDetectFails.avc1Ok = true :=
  ⟨rfl, rfl, rfl, rfl, rfl⟩

/-- Witness for C2 (amended) on a successful one-frame run. -/
theorem auto_blur_release_witness :
    (auto_blur_bottom_text envAllOk cfgBase).capReleased = true ∧
    (auto_blur_bottom_text envAllOk cfgBase).outReleased = true :=
  (auto_blur_release envAllOk cfgBase).1 [⟨true, []⟩] rfl

/-- C3: the primary avc1 codec is attempted first with the source's
dimensions and (fallback-corrected) frame rate; the mp4v fallback is
attempted, with the same dimensions and rate, exactly when avc1 fails to
open; the fatal encoder error occurs exactly when both fail, and on that
path the decode handle has been released and the encode handle has not. -/
theorem auto_blur_encoder_fallback (env : CaptureEnv) (cfg : BlurConfig)
    (hocr : env.ocrOk = true) (hopen : env.opensOk = true) :
    (env.avc1Ok = true → (auto_blur_bottom_text env cfg).encoderAttempts =
      [("avc1", env.width, env.height, if env.fps0 = 0 then 25 else env.fps0)]) ∧
    (env.avc1Ok = false → (auto_blur_bottom_text env cfg).encoderAttempts =
      [("avc1", env.width, env.height, if env.fps0 = 0 then 25 else env.fps0),
       ("mp4v", env.width, env.height, if env.fps0 = 0 then 25 else env.fps0)]) ∧
    ((auto_blur_bottom_text env cfg).result = .error .encoderFail ↔
      env.avc1Ok = false ∧ env.mp4vOk = false) ∧
    (env.avc1Ok = false → env.mp4vOk = false →
      (auto_blur_bottom_text env cfg).capReleased = true ∧
      (auto_blur_bottom_text env cfg).outReleased = false) := by
  simp only [auto_blur_bottom_text]
  rw [if_neg (by rw [hocr]; intro hh; cases hh),
      if_neg (by rw [hopen]; intro hh; cases hh)]
  by_cases ha : env.avc1Ok = true
  · rw [if_pos ha]
    have h := runAfterEncoder_release env cfg
      [("avc1", env.width, env.height, if env.fps0 = 0 then 25 else env.fps0)]
    refine ⟨?_, ?_, ?_, ?_⟩
    · intro _
      exact runAfterEncoder_attempts env cfg _
    · intro hna
      rw [ha] at hna
      cases hna
    · constructor
      · intro he
        rcases (h.2 _ he).1 with hh | hh | hh <;> cases hh
      · intro hfm
        rw [ha] at hfm
        cases hfm.1
    · intro hna _
      rw [ha] at hna
      cases hna
  · rw [if_neg ha]
    by_cases hm : env.mp4vOk = true
    · rw [if_pos hm]
      have h := runAfterEncoder_release env cfg
        [("avc1", env.width, env.height, if env.fps0 = 0 then 25 else env.fps0),
         ("mp4v", env.width, env.height, if env.fps0 = 0 then 25 else env.fps0)]
      refine ⟨?_, ?_, ?_, ?_⟩
      · intro hat
        exact absurd hat ha
      · intro _
        exact runAfterEncoder_attempts env cfg _
      · constructor
        · intro he
          rcases (h.2 _ he).1 with hh | hh | hh <;> cases hh
        · intro hfm
          rw [hfm.2] at hm
          cases hm
      · intro _ hnm
        rw [hnm] at hm
        cases hm
    · rw [if_neg hm]
      have ha' : env.avc1Ok = false := by
        rcases hb : env.avc1Ok with _ | _
        · rfl
        · exact absurd hb ha
      have hm' : env.mp4vOk = false := by
        rcases hb : env.mp4vOk with _ | _
        · rfl
        · exact absurd hb hm
      refine ⟨?_, ?_, ?_, ?_⟩
      · intro hat
        exact absurd hat ha
      · intro _
        rfl
      · exact ⟨fun _ => ⟨ha', hm'⟩, fun _ => rfl⟩
      · intro _ _
        exact ⟨rfl, rfl⟩

/-- Witness for C3: with both encoders failing to open, the pipeline fails
with the encoder error, the decode handle is released, the encode handle is
not, and both attempts used the source's dimensions and rate. -/
theorem auto_blur_encoder_fallback_witness :
    (auto_blur_bottom_text envEncFail cfgBase).result = .error .encoderFail ∧
    (auto_blur_bottom_text envEncFail cfgBase).capReleased = true ∧
    (auto_blur_bottom_text envEncFail cfgBase).outReleased = false ∧
    (auto_blur_bottom_text envEncFail cfgBase).encoderAttempts =
      [("avc1", 8, 6, 30), ("mp4v", 8, 6, 30)] := by
  have h := auto_blur_encoder_fallback envEncFail cfgBase rfl rfl
  refine ⟨h.2.2.1.mpr ⟨rfl, rfl⟩, (h.2.2.2 rfl rfl).1, (h.2.2.2 rfl rfl).2, ?_⟩
  rw [h.2.1 rfl]
  decide

theorem ceil_div_succ (N : ℕ) (hN : 1 ≤ N) (T : ℕ) :
    (T + 1 + N - 1) / N = (T + N - 1) / N + (if T % N = 0 then 1 else 0) := by
  have hqr := Nat.div_add_mod T N
  have hrlt : T % N < N := Nat.mod_lt T (by omega)
  by_cases h0 : T % N = 0
  · rw [if_pos h0]
    have e1 : T + 1 + N - 1 = N * (T / N) + N := by omega
    have e2 : T + N - 1 = N * (T / N) + (N - 1) := by omega
    rw [e1, e2, Nat.mul_add_div (show 0 < N by omega),
        Nat.mul_add_div (show 0 < N by omega),
        Nat.div_self (show 0 < N by omega),
        Nat.div_eq_of_lt (show N - 1 < N by omega)]
  · rw [if_neg h0]
    have e0 : N * (T / N + 1) = N * (T / N) + N := by ring
    have e1 : T + 1 + N - 1 = N * (T / N + 1) + T % N := by omega
    have e2 : T + N - 1 = N * (T / N + 1) + (T % N - 1) := by omega
    rw [e1, e2, Nat.mul_add_div (show 0 < N by omega),
        Nat.mul_add_div (show 0 < N by omega),
        Nat.div_eq_of_lt (show T % N < N by omega),
        Nat.div_eq_of_lt (show T % N - 1 < N by omega)]

theorem countP_range_mod (N : ℕ) (hN : 1 ≤ N) :
    ∀ T, (List.range T).countP (fun i => decide (i % N = 0)) = (T + N - 1) / N := by
  intro T
  induction T with
  | zero =>
    have e : 0 + N - 1 = N - 1 := by omega
    rw [List.range_zero, List.countP_nil, e, Nat.div_eq_of_lt (by omega)]
  | succ T ih =>
    rw [List.range_succ, List.countP_append, ih, ceil_div_succ N hN T,
        List.countP_cons, List.countP_nil]
    simp

theorem countP_eq_countP_range {α : Type} (p : α → Bool) :
    ∀ (l : List α) (q : ℕ → Bool),
      (∀ j (hj : j < l.length), p (l.get ⟨j, hj⟩) = q j) →
      l.countP p = (List.range l.length).countP q := by
  intro l
  induction l with
  | nil => intro q _; rfl
  | cons a l ih =>
    intro q h
    rw [List.countP_cons, List.length_cons, List.range_succ_eq_map,
        List.countP_cons, List.countP_map]
    have h0 : p a = q 0 := h 0 (by simp)
    have hrest := ih (q ∘ Nat.succ) (fun j hj => h (j + 1) (by simpa using hj))
    rw [hrest, h0]

theorem runFrames_ok_spec (env : CaptureEnv) (cfg : BlurConfig) (bandY0 : ℤ) :
    ∀ (items : List ReadItem) (idx : ℕ) (cached : List PyBox) (tr : List FrameRec),
      runFrames env cfg bandY0 items idx cached = .ok tr →
      tr.length = items.length ∧
      (∀ j (hj : j < tr.length),
        (tr.get ⟨j, hj⟩).sampled = decide ((idx + j) % cfg.sample_step = 0)) ∧
      (∀ j (hj : j < tr.length), (idx + j) % cfg.sample_step = 0 →
        sampledBoxes env cfg bandY0 (idx + j) = .ok (tr.get ⟨j, hj⟩).boxesUsed) ∧
      (∀ hj0 : 0 < tr.length, idx % cfg.sample_step ≠ 0 →
        (tr.get ⟨0, hj0⟩).boxesUsed = cached) ∧
      (∀ j (hj : j + 1 < tr.length), (idx + j + 1) % cfg.sample_step ≠ 0 →
        (tr.get ⟨j + 1, hj⟩).boxesUsed =
          (tr.get ⟨j, Nat.lt_of_succ_lt hj⟩).boxesUsed) := by
  intro items
  induction items with
  | nil =>
    intro idx cached tr h
    injection h with h
    subst h
    refine ⟨rfl, ?_, ?_, ?_, ?_⟩
    · intro j hj
      cases hj
    · intro j hj
      cases hj
    · intro hj0
      cases hj0
    · intro j hj
      cases hj
  | cons item rest ih =>
    intro idx cached tr h
    cases item with
    | exn => cases h
    | frame f =>
      rw [runFrames] at h
      split at h
      · rename_i hs
        split at h
        · cases h
        · rename_i bs hbs
          split at h
          · rename_i hw
            rcases hr : runFrames env cfg bandY0 rest (idx + 1) bs with e' | tr'
            · rw [hr] at h
              simp only [Except.map] at h
              cases h
            · rw [hr] at h
              simp only [Except.map] at h
              injection h with h
              subst h
              obtain ⟨ihlen, ihsamp, ihdet, ihhead, ihstep⟩ := ih (idx + 1) bs tr' hr
              refine ⟨by simp [ihlen], ?_, ?_, ?_, ?_⟩
              · intro j hj
                cases j with
                | zero => simp [List.get, hs]
                | succ j' =>
                  have e : idx + (j' + 1) = idx + 1 + j' := by omega
                  rw [e]
                  exact ihsamp j' (by simpa using hj)
              · intro j hj hmod
                cases j with
                | zero =>
                  show sampledBoxes env cfg bandY0 (idx + 0) = .ok bs
                  simpa using hbs
                | succ j' =>
                  have e : idx + (j' + 1) = idx + 1 + j' := by omega
                  rw [e] at hmod ⊢
                  exact ihdet j' (by simpa using hj) hmod
              · intro hj0 hmod
                exact absurd hs hmod
              · intro j hj hmod
                cases j with
                | zero =>
                  show (tr'.get ⟨0, by simpa using hj⟩).boxesUsed = bs
                  refine ihhead (by simpa using hj) ?_
                  have e : idx + 0 + 1 = idx + 1 := by omega
                  rwa [e] at hmod
                | succ j' =>
                  show (tr'.get ⟨j' + 1, by simpa using hj⟩).boxesUsed =
                    (tr'.get ⟨j', _⟩).boxesUsed
                  refine ihstep j' (by simpa using hj) ?_
                  have e : idx + (j' + 1) + 1 = idx + 1 + j' + 1 := by omega
                  rwa [e] at hmod
          · cases h
      · rename_i hs
        split at h
        · rename_i hw
          rcases hr : runFrames env cfg bandY0 rest (idx + 1) cached with e' | tr'
          · rw [hr] at h
            simp only [Except.map] at h
            cases h
          · rw [hr] at h
            simp only [Except.map] at h
            injection h with h
            subst h
            obtain ⟨ihlen, ihsamp, ihdet, ihhead, ihstep⟩ := ih (idx + 1) cached tr' hr
            refine ⟨by simp [ihlen], ?_, ?_, ?_, ?_⟩
            · intro j hj
              cases j with
              | zero => simp [List.get, hs]
              | succ j' =>
                have e : idx + (j' + 1) = idx + 1 + j' := by omega
                rw [e]
                exact ihsamp j' (by simpa using hj)
            · intro j hj hmod
              cases j with
              | zero =>
                rw [Nat.add_zero] at hmod
                exact absurd hmod hs
              | succ j' =>
                have e : idx + (j' + 1) = idx + 1 + j' := by omega
                rw [e] at hmod ⊢
                exact ihdet j' (by simpa using hj) hmod
            · intro hj0 hmod
              rfl
            · intro j hj hmod
              cases j with
              | zero =>
                show (tr'.get ⟨0, by simpa using hj⟩).boxesUsed = cached
                refine ihhead (by simpa using hj) ?_
                have e : idx + 0 + 1 = idx + 1 := by omega
                rwa [e] at hmod
              | succ j' =>
                show (tr'.get ⟨j' + 1, by simpa using hj⟩).boxesUsed =
                  (tr'.get ⟨j', _⟩).boxesUsed
                refine ihstep j' (by simpa using hj) ?_
                have e : idx + (j' + 1) + 1 = idx + 1 + j' + 1 := by omega
                rwa [e] at hmod
        · cases h

theorem runAfterEncoder_ok (env : CaptureEnv) (cfg : BlurConfig)
    (attempts : List (String × ℕ × ℕ × ℚ)) (tr : List FrameRec)
    (h : (runAfterEncoder env cfg attempts).result = .ok tr) :
    runFrames env cfg (bandTop env.height cfg.bottom_ratio) env.reads 0 [] =
      .ok tr := by
  unfold runAfterEncoder at h
  rcases hr : runFrames env cfg (bandTop env.height cfg.bottom_ratio)
      env.reads 0 [] with e' | tr'
  · rw [hr] at h
    cases h
  · rw [hr] at h
    injection h with h
    rw [h]

theorem auto_blur_ok_runFrames (env : CaptureEnv) (cfg : BlurConfig)
    (tr : List FrameRec)
    (hok : (auto_blur_bottom_text env cfg).result = .ok tr) :
    runFrames env cfg (bandTop env.height cfg.bottom_ratio) env.reads 0 [] =
      .ok tr := by
  simp only [auto_blur_bottom_text] at hok
  by_cases h1 : env.ocrOk = false
  · rw [if_pos h1] at hok
    cases hok
  · rw [if_neg h1] at hok
    by_cases h2 : env.opensOk = false
    · rw [if_pos h2] at hok
      cases hok
    · rw [if_neg h2] at hok
      by_cases ha : env.avc1Ok = true
      · rw [if_pos ha] at hok
        exact runAfterEncoder_ok env cfg _ tr hok
      · rw [if_neg ha] at hok
        by_cases hm : env.mp4vOk = true
        · rw [if_pos hm] at hok
          exact runAfterEncoder_ok env cfg _ tr hok
        · rw [if_neg hm] at hok
          cases hok

/-- C4: on a successful run with `sample_step = N ≥ 1`, there is one trace
record per decoded frame; the detector is invoked exactly on the frames
whose 0-based index is divisible by N; the number of invocations is
`ceil(totalFrames / N) = (totalFrames + N - 1) / N`; on sampled frames the
cached box set is replaced by the detector output translated by the band's
row offset; and every other frame reuses the immediately preceding frame's
box set unchanged. -/
theorem auto_blur_sampling_invariant (env : CaptureEnv) (cfg : BlurConfig)
    (tr : List FrameRec) (hN : 1 ≤ cfg.sample_step)
    (hok : (auto_blur_bottom_text env cfg).result = .ok tr) :
    tr.length = env.reads.length ∧
    (∀ j (hj : j < tr.length),
      (tr.get ⟨j, hj⟩).sampled = decide (j % cfg.sample_step = 0)) ∧
    ((tr.filter (fun rec => rec.sampled)).length =
      (tr.length + cfg.sample_step - 1) / cfg.sample_step) ∧
    (∀ j (hj : j < tr.length), j % cfg.sample_step = 0 →
      sampledBoxes env cfg (bandTop env.height cfg.bottom_ratio) j =
        .ok ((tr.get ⟨j, hj⟩).boxesUsed)) ∧
    (∀ j (hj : j + 1 < tr.length), (j + 1) % cfg.sample_step ≠ 0 →
      (tr.get ⟨j + 1, hj⟩).boxesUsed =
        (tr.get ⟨j, Nat.lt_of_succ_lt hj⟩).boxesUsed) := by
  have hrun := auto_blur_ok_runFrames env cfg tr hok
  obtain ⟨hlen, hsamp, hdet, _, hstep⟩ :=
    runFrames_ok_spec env cfg (bandTop env.height cfg.bottom_ratio)
      env.reads 0 [] tr hrun
  have hsamp' : ∀ j (hj : j < tr.length),
      (tr.get ⟨j, hj⟩).sampled = decide (j % cfg.sample_step = 0) := by
    intro j hj
    have := hsamp j hj
    rwa [Nat.zero_add] at this
  refine ⟨hlen, hsamp', ?_, ?_, ?_⟩
  · rw [← List.countP_eq_length_filter]
    rw [countP_eq_countP_range (fun rec => rec.sampled) tr
        (fun j => decide (j % cfg.sample_step = 0)) hsamp']
    exact countP_range_mod cfg.sample_step hN tr.length
  · intro j hj hmod
    have := hdet j hj (by rwa [Nat.zero_add])
    rwa [Nat.zero_add] at this
  · intro j hj hmod
    exact hstep j hj (by rwa [Nat.zero_add])

/-- A ten-frame environment in which every step succeeds and the detector
finds nothing. -/
def envTen : CaptureEnv :=
  ⟨true, true, 25, 100, 100, true, true,
   List.replicate 10 (.frame (fun _ _ => 0)), fun _ => .ok [], fun _ => true⟩

/-- Sampling configuration with `sample_step = 3`. -/
def cfgStepThree : BlurConfig := ⟨0, 3, 0, 27⟩

/-- The trace of `envTen` under `cfgStepThree`: detector invoked on frames
0, 3, 6, 9. -/
def trTen : List FrameRec :=
  [⟨true, []⟩, ⟨false, []⟩, ⟨false, []⟩, ⟨true, []⟩, ⟨false, []⟩,
   ⟨false, []⟩, ⟨true, []⟩, ⟨false, []⟩, ⟨false, []⟩, ⟨true, []⟩]

/-- Witness for C4: ten frames at `sample_step = 3` give exactly
`ceil(10 / 3) = 4` detector invocations, at frames 0, 3, 6, 9. -/
theorem auto_blur_sampling_invariant_witness :
    (auto_blur_bottom_text envTen cfgStepThree).result = .ok trTen ∧
    (trTen.filter (fun rec => rec.sampled)).length = 4 := by
  have h := auto_blur_sampling_invariant envTen cfgStepThree trTen
    (by decide) rfl
  refine ⟨rfl, ?_⟩
  rw [h.2.2.1]
  decide

/-! ### String primitives for the URL helpers

All string work is done on `List Char` with structural recursion, so that
every function evaluates by kernel reduction on concrete inputs. -/

/-- Needle is a leading segment of the haystack. -/
def strStartsWith : List Char → List Char → Bool
  | [], _ => true
  | _ :: _, [] => false
  | a :: as, b :: bs => a == b && strStartsWith as bs

/-- Python's `needle in hay` substring test. -/
def strOccursIn (needle : List Char) : List Char → Bool
  | [] => needle.isEmpty
  | b :: bs => strStartsWith needle (b :: bs) || strOccursIn needle bs

/-- Python's `needle in hay` on `String`s. -/
def pyIn (needle hay : String) : Bool :=
  strOccursIn needle.toList hay.toList

/-- Needle is a trailing segment of the haystack. -/
def strEndsWith (needle hay : List Char) : Bool :=
  strStartsWith needle.reverse hay.reverse

/-- `u.replace("\\/", "/")`: the body of `_unescape_js_url`. -/
def unescapeSlashes : List Char → List Char
  | '\\' :: '/' :: rest => '/' :: unescapeSlashes rest
  | c :: rest => c :: unescapeSlashes rest
  | [] => []

/-- `_unescape_js_url(u)`. -/
def unescape_js_url (u : String) : String :=
  String.mk (unescapeSlashes u.toList)

/-- The input preprocessing of `urllib.parse.urlsplit`: strip C0 controls
and spaces from both ends, then remove every tab, CR and LF. -/
def urlPreprocess (l : List Char) : List Char :=
  (((l.dropWhile (fun c => decide (c.val ≤ 32))).reverse.dropWhile
      (fun c => decide (c.val ≤ 32))).reverse).filter
    (fun c => !(c == '\t' || c == '\r' || c == '\n'))

/-- Characters allowed in a URL scheme after the first. -/
def schemeChar (c : Char) : Bool :=
  c.isAlpha || c.isDigit || c == '+' || c == '-' || c == '.'

/-- Scan for `scheme:`: all characters up to the first colon must be scheme
characters; returns the remainder after the colon when the scan succeeds. -/
def dropSchemeAux : List Char → Option (List Char)
  | [] => none
  | ':' :: rest => some rest
  | c :: rest => if schemeChar c then dropSchemeAux rest else none

/-- Remove a leading `scheme:` when present (first character must be an
ASCII letter, as in `urllib.parse.urlsplit`). -/
def dropScheme (l : List Char) : List Char :=
  match l with
  | [] => []
  | c :: _ => if c.isAlpha then (dropSchemeAux l).getD l else l

/-- `urlparse(u).netloc` (on a preprocessed character list): present only
when `//` immediately follows the scheme, and runs to the next `/`, `?` or
`#`. -/
def netlocOf (l : List Char) : List Char :=
  match dropScheme l with
  | '/' :: '/' :: rest =>
    rest.takeWhile (fun c => !(c == '/' || c == '?' || c == '#'))
  | _ => []

/-- What remains of the URL after removing scheme and network location. -/
def restAfterNetloc (l : List Char) : List Char :=
  match dropScheme l with
  | '/' :: '/' :: rest =>
    rest.dropWhile (fun c => !(c == '/' || c == '?' || c == '#'))
  | r => r

/-- `urlparse`'s parameter split: drop everything from the first `;` of the
last path segment. -/
def splitParamsPath (l : List Char) : List Char :=
  if l.contains '/' then
    let pre := (l.reverse.dropWhile (fun c => !(c == '/'))).reverse
    let seg := (l.reverse.takeWhile (fun c => !(c == '/'))).reverse
    pre ++ seg.takeWhile (fun c => !(c == ';'))
  else l.takeWhile (fun c => !(c == ';'))

/-- `urlparse(u).path`: preprocess, drop scheme and netloc, cut the
fragment (first `#`), cut the query (first `?`), split parameters. -/
def urlparsePath (u : String) : List Char :=
  splitParamsPath
    (((restAfterNetloc (urlPreprocess u.toList)).takeWhile
        (fun c => !(c == '#'))).takeWhile (fun c => !(c == '?')))

/-- `os.path.basename`: the segment after the last `/`. -/
def pyBasename (l : List Char) : List Char :=
  (l.reverse.takeWhile (fun c => !(c == '/'))).reverse

/-- Python's regex class `\w` (Unicode word character) approximated:
exact on the ASCII range; every non-ASCII code point is treated as a word
character (correct for Hangul and accented Latin, the realistic non-ASCII
inputs of this application). -/
def pyWordChar (c : Char) : Bool :=
  c.isAlphanum || c == '_' || decide (128 ≤ c.val)

/-- The class `[\w\-. ]` of `guess_filename_from_url`'s regex. -/
def sanitizeAllowed (c : Char) : Bool :=
  pyWordChar c || c == '-' || c == '.' || c == ' '

/-- State machine for `re.sub(r"[^\w\-. ]+", "_", name)`: each maximal run
of disallowed characters becomes a single underscore.  The flag records
whether the previous character belonged to such a run. -/
def subRunsGo : Bool → List Char → List Char
  | _, [] => []
  | inRun, c :: cs =>
    if sanitizeAllowed c then c :: subRunsGo false cs
    else if inRun then subRunsGo true cs
    else '_' :: subRunsGo true cs

/-- `re.sub(r"[^\w\-. ]+", "_", name)`. -/
def subRuns (l : List Char) : List Char :=
  subRunsGo false l

/-- Value of an ASCII hex digit. -/
def hexDigitVal (c : Char) : Option ℕ :=
  if c.isDigit then some (c.toNat - 48)
  else if 'a' ≤ c ∧ c ≤ 'f' then some (c.toNat - 87)
  else if 'A' ≤ c ∧ c ≤ 'F' then some (c.toNat - 55)
  else none

/-- `urllib.parse.unquote` restricted to single-byte percent-escapes: each
`%HH` becomes the character with code `HH`, malformed escapes are kept
verbatim.  (Python decodes multi-byte escape sequences as UTF-8, which this
model does not reproduce; in `guess_filename_from_url` the function is only
applied after the sanitizer has removed every `%`, where it is the
identity — see `pyUnquote_of_no_percent`.) -/
def pyUnquote : List Char → List Char
  | '%' :: a :: b :: rest =>
    (match hexDigitVal a, hexDigitVal b with
     | some x, some y => Char.ofNat (16 * x + y) :: pyUnquote rest
     | _, _ => '%' :: pyUnquote (a :: b :: rest))
  | c :: rest => c :: pyUnquote rest
  | [] => []

/-- `s.strip(chars)`: remove leading and trailing characters of the set. -/
def pyStrip (set : List Char) (l : List Char) : List Char :=
  ((l.dropWhile (fun c => set.contains c)).reverse.dropWhile
    (fun c => set.contains c)).reverse

/-- The recognized video extensions of `guess_filename_from_url`. -/
def videoExts : List (List Char) :=
  [".mp4".toList, ".mov".toList, ".m4v".toList, ".webm".toList]

/-- `name.lower().endswith((".mp4", ".mov", ".m4v", ".webm"))`. -/
def hasVideoExt (l : List Char) : Bool :=
  videoExts.any (fun ext => strEndsWith ext (l.map Char.toLower))

/-- `guess_filename_from_url(video_url)`: base name of the URL path
(defaulting to `video`), sanitized, percent-decoded, trimmed of `._ `
(defaulting to `video`), with `.mp4` appended unless a recognized video
extension is already present. -/
def guess_filename_from_url (video_url : String) : String :=
  let name0 := pyBasename (urlparsePath video_url)
  let name1 := if name0 = [] then "video".toList else name0
  let name2 := pyStrip "._ ".toList (pyUnquote (subRuns name1))
  let name3 := if name2 = [] then "video".toList else name2
  String.mk (if hasVideoExt name3 then name3 else name3 ++ ".mp4".toList)

/-- `guess_filename_from_url` as worded by the amended claim C1: identical
pipeline with the percent-decoding step omitted, since the sanitizer has
already replaced every `%` and decoding a percent-free string is the
identity. -/
def guessFilenameAmendedSpec (video_url : String) : String :=
  let name0 := pyBasename (urlparsePath video_url)
  let name1 := if name0 = [] then "video".toList else name0
  let name2 := pyStrip "._ ".toList (subRuns name1)
  let name3 := if name2 = [] then "video".toList else name2
  String.mk (if hasVideoExt name3 then name3 else name3 ++ ".mp4".toList)

theorem subRunsGo_no_percent : ∀ (l : List Char) (b : Bool),
    '%' ∉ subRunsGo b l := by
  intro l
  induction l with
  | nil =>
    intro b hmem
    cases hmem
  | cons c cs ih =>
    intro b hmem
    simp only [subRunsGo] at hmem
    split at hmem
    · rename_i hc
      rcases List.mem_cons.mp hmem with h | h
      · rw [← h] at hc
        exact absurd hc (by decide)
      · exact ih false h
    · split at hmem
      · exact ih true hmem
      · rcases List.mem_cons.mp hmem with h | h
        · exact absurd h (by decide)
        · exact ih true h

theorem subRuns_no_percent (l : List Char) : '%' ∉ subRuns l :=
  subRunsGo_no_percent l false

theorem pyUnquote_of_no_percent : ∀ l : List Char, '%' ∉ l → pyUnquote l = l := by
  intro l
  induction l using pyUnquote.induct with
  | case1 a b rest hx ih =>
    intro h
    exact absurd (List.mem_cons_self _ _) h
  | case2 a b rest hx ih =>
    intro h
    exact absurd (List.mem_cons_self _ _) h
  | case3 c rest hne ih =>
    intro h
    rw [pyUnquote.eq_2 c rest hne, ih (fun hm => h (List.mem_cons_of_mem _ hm))]
  | case4 =>
    intro h
    rfl

theorem pyUnquote_subRuns (l : List Char) : pyUnquote (subRuns l) = subRuns l :=
  pyUnquote_of_no_percent _ (subRuns_no_percent l)

/-- C1 counterexample: the source sanitizes before percent-decoding (and
collapses each run of disallowed characters into one underscore), so the
claim's example URL yields `a_20b_.MOV` — `%20` becomes `_20` — rather than
the claimed `a_b_.MOV`. -/
theorem guess_filename_from_url_counterexample :
    guess_filename_from_url "https://cdn.example.com/a%20b!@.MOV?x=1" =
      "a_20b_.MOV" ∧
    guess_filename_from_url "https://cdn.example.com/a%20b!@.MOV?x=1" ≠
      "a_b_.MOV" := by
  constructor
  · decide
  · decide

/-- C1 (amended): the derived filename is the URL path's base name
(defaulting to `video` when empty), with every maximal run of characters
outside `[\w\-. ]` replaced by a single underscore **before**
percent-decoding — so `%` itself is replaced and the decoding step is the
identity — then trimmed of leading/trailing `._ ` (defaulting to `video`),
with `.mp4` appended unless a recognized video extension is already present
(case-insensitively); the example URL yields `a_20b_.MOV`. -/
theorem guess_filename_from_url_amended (u : String) :
    guess_filename_from_url u = guessFilenameAmendedSpec u ∧
    guess_filename_from_url "https://cdn.example.com/a%20b!@.MOV?x=1" =
      "a_20b_.MOV" := by
  constructor
  · simp only [guess_filename_from_url, guessFilenameAmendedSpec,
      pyUnquote_subRuns]
  · decide

/-! ### HTML extraction (`extract_video_urls_from_html`)

BeautifulSoup and the two regex scans are abstracted as an `HtmlModel`
carrying the element/attribute data the source inspects; `urljoin` (from
`urllib.parse`, an external library) is an abstract function parameter,
while the `urlparse(u).netloc` test that guards it is modelled concretely. -/

/-- One `<video>` element: its `src` attribute (when present) and the `src`
attributes of its `<source>` descendants (in document order). -/
structure VideoTag where
  srcAttr : Option String
  sourceSrcs : List String

/-- The parts of the parsed document that the three strategies read. -/
structure HtmlModel where
  doveVideos : List VideoTag
  allVideos : List VideoTag
  rawMp4 : List String
  rawMp4Escaped : List String

/-- Python truthiness of `v.get("src")`: present and nonempty. -/
def pyTruthyStr : Option String → Bool
  | none => false
  | some s => !(s == "")

/-- URLs contributed by one element under strategy 1
(`if v.get("src")` plus `v.select("source[src]")`). -/
def tagUrlsSel (v : VideoTag) : List String :=
  (if pyTruthyStr v.srcAttr then [v.srcAttr.getD ""] else []) ++ v.sourceSrcs

/-- URLs contributed by one element under strategy 2
(`if v.get("src")` plus `find_all("source")` filtered by `s.get("src")`). -/
def tagUrlsAll (v : VideoTag) : List String :=
  (if pyTruthyStr v.srcAttr then [v.srcAttr.getD ""] else []) ++
    v.sourceSrcs.filter (fun s => !(s == ""))

/-- Strategy 1: `soup.select("div.react-dove-video video")`. -/
def doveStrategyUrls (m : HtmlModel) : List String :=
  m.doveVideos.bind tagUrlsSel

/-- Strategy 2: `soup.find_all("video")`. -/
def globalStrategyUrls (m : HtmlModel) : List String :=
  m.allVideos.bind tagUrlsAll

/-- Strategy 3: the two regex scans over the raw HTML, the second pass
unescaped. -/
def rawStrategyUrls (m : HtmlModel) : List String :=
  m.rawMp4 ++ m.rawMp4Escaped.map unescape_js_url

/-- The `found` list of `extract_video_urls_from_html`: each later strategy
runs only when the earlier ones produced nothing (`if not found:`). -/
def foundUrls (m : HtmlModel) : List String :=
  let s1 := doveStrategyUrls m
  if s1 ≠ [] then s1
  else
    let s2 := globalStrategyUrls m
    if s2 ≠ [] then s2
    else rawStrategyUrls m

/-- `urlparse(u).netloc` is nonempty. -/
def hasNetloc (u : String) : Bool :=
  !(netlocOf (urlPreprocess u.toList) == [])

/-- `absolutize(u, base)`: keep the URL when it has a network location,
otherwise join it to the base via the abstract `urljoin`. -/
def absolutize (join : String → String → String) (u base : String) : String :=
  if hasNetloc u then u else join base u

/-- The priority test `"alicdn.com" in u or "alibaba.com" in u`. -/
def trustedSubstring (u : String) : Bool :=
  pyIn "alicdn.com" u || pyIn "alibaba.com" u

/-- The `seen` loop: keep the first occurrence of each value. -/
def dedupKeepFirst (seen : List String) : List String → List String
  | [] => []
  | u :: rest =>
    if seen.contains u then dedupKeepFirst seen rest
    else u :: dedupKeepFirst (u :: seen) rest

/-- `extract_video_urls_from_html(html, page_url)`: collect the found URLs,
order the trusted-substring ones first, absolutize, deduplicate. -/
def extract_video_urls_from_html (join : String → String → String)
    (m : HtmlModel) (page_url : String) : List String :=
  let found := foundUrls m
  let pri := found.filter trustedSubstring
  let sec := found.filter (fun u => !(trustedSubstring u))
  dedupKeepFirst [] ((pri ++ sec).map (fun u => absolutize join u page_url))

theorem mem_dedupKeepFirst :
    ∀ (l seen : List String) (u : String),
      u ∈ dedupKeepFirst seen l ↔ (u ∈ l ∧ u ∉ seen) := by
  intro l
  induction l with
  | nil =>
    intro seen u
    simp [dedupKeepFirst]
  | cons v rest ih =>
    intro seen u
    simp only [dedupKeepFirst]
    by_cases hv : seen.contains v = true
    · rw [if_pos hv]
      have hvmem : v ∈ seen := List.elem_iff.mp hv
      rw [ih seen u]
      constructor
      · rintro ⟨h1, h2⟩
        exact ⟨List.mem_cons_of_mem _ h1, h2⟩
      · rintro ⟨h1, h2⟩
        rcases List.mem_cons.mp h1 with h | h
        · subst h
          exact absurd hvmem h2
        · exact ⟨h, h2⟩
    · rw [if_neg hv]
      have hvnmem : v ∉ seen := fun hm => hv (List.elem_iff.mpr hm)
      constructor
      · intro hm
        rcases List.mem_cons.mp hm with h | h
        · subst h
          exact ⟨List.mem_cons_self _ _, hvnmem⟩
        · obtain ⟨h1, h2⟩ := (ih (v :: seen) u).mp h
          exact ⟨List.mem_cons_of_mem _ h1,
            fun hc => h2 (List.mem_cons_of_mem _ hc)⟩
      · rintro ⟨h1, h2⟩
        by_cases he : u = v
        · subst he
          exact List.mem_cons_self _ _
        · rcases List.mem_cons.mp h1 with h | h
          · exact absurd h he
          · refine List.mem_cons_of_mem _ ((ih (v :: seen) u).mpr ⟨h, ?_⟩)
            intro hc
            rcases List.mem_cons.mp hc with hh | hh
            · exact he hh
            · exact h2 hh

theorem nodup_dedupKeepFirst :
    ∀ (l seen : List String), (dedupKeepFirst seen l).Nodup := by
  intro l
  induction l with
  | nil =>
    intro seen
    exact List.nodup_nil
  | cons v rest ih =>
    intro seen
    simp only [dedupKeepFirst]
    by_cases hv : seen.contains v = true
    · rw [if_pos hv]
      exact ih seen
    · rw [if_neg hv]
      refine List.Nodup.cons ?_ (ih (v :: seen))
      intro hm
      exact ((mem_dedupKeepFirst rest (v :: seen) v).mp hm).2
        (List.mem_cons_self _ _)

theorem dedupKeepFirst_append :
    ∀ (A B seen : List String),
      ∃ seen', dedupKeepFirst seen (A ++ B) =
          dedupKeepFirst seen A ++ dedupKeepFirst seen' B ∧
        (∀ a ∈ A, a ∈ seen') ∧ (∀ s ∈ seen, s ∈ seen') := by
  intro A
  induction A with
  | nil =>
    intro B seen
    exact ⟨seen, rfl, fun a ha => absurd ha (List.not_mem_nil a), fun s hs => hs⟩
  | cons a A' ih =>
    intro B seen
    by_cases hv : seen.contains a = true
    · have e1 : dedupKeepFirst seen ((a :: A') ++ B) =
          dedupKeepFirst seen (A' ++ B) := by
        show dedupKeepFirst seen (a :: (A' ++ B)) = _
        simp only [dedupKeepFirst]
        rw [if_pos hv]
      have e2 : dedupKeepFirst seen (a :: A') = dedupKeepFirst seen A' := by
        simp only [dedupKeepFirst]
        rw [if_pos hv]
      obtain ⟨seen', heq, hA, hseen⟩ := ih B seen
      refine ⟨seen', ?_, ?_, hseen⟩
      · rw [e1, e2, heq]
      · intro x hx
        rcases List.mem_cons.mp hx with h | h
        · subst h
          exact hseen x (List.elem_iff.mp hv)
        · exact hA x h
    · have e1 : dedupKeepFirst seen ((a :: A') ++ B) =
          a :: dedupKeepFirst (a :: seen) (A' ++ B) := by
        show dedupKeepFirst seen (a :: (A' ++ B)) = _
        simp only [dedupKeepFirst]
        rw [if_neg hv]
      have e2 : dedupKeepFirst seen (a :: A') =
          a :: dedupKeepFirst (a :: seen) A' := by
        simp only [dedupKeepFirst]
        rw [if_neg hv]
      obtain ⟨seen', heq, hA, hseen⟩ := ih B (a :: seen)
      refine ⟨seen', ?_, ?_, fun s hs => hseen s (List.mem_cons_of_mem _ hs)⟩
      · rw [e1, e2, heq, List.cons_append]
      · intro x hx
        rcases List.mem_cons.mp hx with h | h
        · subst h
          exact hseen x (List.mem_cons_self _ _)
        · exact hA x h

theorem mem_filter_partition (found : List String) (p : String → Bool)
    (x : String) :
    x ∈ found.filter p ++ found.filter (fun u => !(p u)) ↔ x ∈ found := by
  rw [List.mem_append, List.mem_filter, List.mem_filter]
  rcases hp : p x with _ | _
  · simp [hp]
  · simp [hp]

theorem extract_mem_iff (join : String → String → String) (m : HtmlModel)
    (page_url : String) (u : String) :
    u ∈ extract_video_urls_from_html join m page_url ↔
      ∃ raw ∈ foundUrls m, absolutize join raw page_url = u := by
  simp only [extract_video_urls_from_html]
  rw [mem_dedupKeepFirst]
  constructor
  · rintro ⟨hm, _⟩
    obtain ⟨raw, hraw, habs⟩ := List.mem_map.mp hm
    exact ⟨raw, (mem_filter_partition _ _ _).mp hraw, habs⟩
  · rintro ⟨raw, hraw, habs⟩
    exact ⟨List.mem_map.mpr ⟨raw, (mem_filter_partition _ _ _).mpr hraw, habs⟩,
      List.not_mem_nil u⟩

theorem extract_empty_of_found_empty (join : String → String → String)
    (m : HtmlModel) (page_url : String) (h : foundUrls m = []) :
    extract_video_urls_from_html join m page_url = [] := by
  simp only [extract_video_urls_from_html, h, List.filter_nil,
    List.nil_append, List.map_nil]
  rfl

theorem extract_trusted_split (join : String → String → String)
    (m : HtmlModel) (page_url : String) :
    ∃ front back,
      extract_video_urls_from_html join m page_url = front ++ back ∧
      (∀ v ∈ front, ∃ raw ∈ foundUrls m, trustedSubstring raw = true ∧
        absolutize join raw page_url = v) ∧
      (∀ v ∈ back, ¬ ∃ raw ∈ foundUrls m, trustedSubstring raw = true ∧
        absolutize join raw page_url = v) := by
  obtain ⟨seen', heq, hP, _⟩ := dedupKeepFirst_append
    (((foundUrls m).filter trustedSubstring).map
      (fun u => absolutize join u page_url))
    (((foundUrls m).filter (fun u => !(trustedSubstring u))).map
      (fun u => absolutize join u page_url))
    []
  refine ⟨dedupKeepFirst [] (((foundUrls m).filter trustedSubstring).map
      (fun u => absolutize join u page_url)),
    dedupKeepFirst seen' (((foundUrls m).filter
      (fun u => !(trustedSubstring u))).map
      (fun u => absolutize join u page_url)), ?_, ?_, ?_⟩
  · simp only [extract_video_urls_from_html]
    rw [List.map_append, heq]
  · intro v hv
    have hvP := ((mem_dedupKeepFirst _ _ _).mp hv).1
    obtain ⟨raw, hraw, habs⟩ := List.mem_map.mp hvP
    obtain ⟨hrawf, hrawt⟩ := List.mem_filter.mp hraw
    exact ⟨raw, hrawf, hrawt, habs⟩
  · intro v hv hex
    obtain ⟨raw, hrawf, hrawt, habs⟩ := hex
    apply ((mem_dedupKeepFirst _ _ _).mp hv).2
    apply hP
    exact List.mem_map.mpr ⟨raw, List.mem_filter.mpr ⟨hrawf, hrawt⟩, habs⟩

/-- The host of a URL (spec-side reading of the claim): the network
location stripped of user-info and port. -/
def urlHost (u : String) : String :=
  String.mk
    ((((netlocOf (urlPreprocess u.toList)).reverse.takeWhile
        (fun c => !(c == '@'))).reverse).takeWhile (fun c => !(c == ':')))

/-- The claim's notion of a trusted CDN domain: the URL's host is
`alicdn.com` or `alibaba.com` or a subdomain of either. -/
def fromTrustedDomain (u : String) : Bool :=
  urlHost u == "alicdn.com" || urlHost u == "alibaba.com" ||
  strEndsWith ".alicdn.com".toList (urlHost u).toList ||
  strEndsWith ".alibaba.com".toList (urlHost u).toList

/-- Every URL from a trusted CDN domain precedes every URL not from one
(the ordering asserted by the claim). -/
def trustedDomainFirst (l : List String) : Prop :=
  ∀ i j (hi : i < l.length) (hj : j < l.length),
    fromTrustedDomain (l.get ⟨i, hi⟩) = true →
    fromTrustedDomain (l.get ⟨j, hj⟩) = false → i < j

/-- The URL carries a scheme. -/
def isAbsoluteUrl (u : String) : Bool :=
  match urlPreprocess u.toList with
  | [] => false
  | c :: rest => c.isAlpha && (dropSchemeAux (c :: rest)).isSome

/-- A document whose raw-text scan yields a URL that merely contains
`alicdn.com` in its path, followed by a URL genuinely hosted on
`alicdn.com`. -/
def htmlPathTrap : HtmlModel :=
  ⟨[], [], ["https://evil.example.net/alicdn.com/a.mp4",
            "https://video.alicdn.com/b.mp4"], []⟩

/-- A document with one structured video whose `src` is relative. -/
def htmlRelativeSrc : HtmlModel :=
  ⟨[⟨some "vid.mp4", []⟩], [], [], []⟩

/-- C8 counterexample: the source's priority test is a substring test on
the raw URL, so a URL whose host is `evil.example.net` but whose path
contains `alicdn.com` is ordered before a URL actually hosted on
`video.alicdn.com` — the trusted-domain ordering fails; and with an empty
page URL a relative `src` is returned unresolved, so the output is not a
sequence of absolute URLs (the join argument agrees with Python's
`urljoin`, which returns the URL unchanged when the base is empty). -/
theorem extract_video_urls_counterexample :
    extract_video_urls_from_html (fun _ u => u) htmlPathTrap
      "https://www.alibaba.com/p" =
      ["https://evil.example.net/alicdn.com/a.mp4",
       "https://video.alicdn.com/b.mp4"] ∧
    fromTrustedDomain "https://evil.example.net/alicdn.com/a.mp4" = false ∧
    fromTrustedDomain "https://video.alicdn.com/b.mp4" = true ∧
    ¬ trustedDomainFirst (extract_video_urls_from_html (fun _ u => u)
      htmlPathTrap "https://www.alibaba.com/p") ∧
    extract_video_urls_from_html (fun _ u => u) htmlRelativeSrc "" =
      ["vid.mp4"] ∧
    isAbsoluteUrl "vid.mp4" = false := by
  refine ⟨by decide, by decide, by decide, ?_, by decide, by decide⟩
  intro htf
  exact absurd (htf 1 0 (by decide) (by decide) (by decide) (by decide))
    (by decide)

/-- C8 (amended): the extraction returns a duplicate-free sequence; it is
empty exactly when nothing was found (and always consists of the found URLs
absolutized against the page URL); and it splits into a front block of URLs
coming from found URLs that contain `alicdn.com` or `alibaba.com` as a
substring, followed by a back block none of whose entries come from such a
URL. -/
theorem extract_video_urls_spec (join : String → String → String)
    (m : HtmlModel) (page_url : String) :
    (extract_video_urls_from_html join m page_url).Nodup ∧
    (foundUrls m = [] → extract_video_urls_from_html join m page_url = []) ∧
    (∀ u, u ∈ extract_video_urls_from_html join m page_url ↔
      ∃ raw ∈ foundUrls m, absolutize join raw page_url = u) ∧
    (∃ front back,
      extract_video_urls_from_html join m page_url = front ++ back ∧
      (∀ v ∈ front, ∃ raw ∈ foundUrls m, trustedSubstring raw = true ∧
        absolutize join raw page_url = v) ∧
      (∀ v ∈ back, ¬ ∃ raw ∈ foundUrls m, trustedSubstring raw = true ∧
        absolutize join raw page_url = v)) :=
  ⟨nodup_dedupKeepFirst _ [],
   extract_empty_of_found_empty join m page_url,
   extract_mem_iff join m page_url,
   extract_trusted_split join m page_url⟩

/-- Witness for C8 (amended): an empty document extracts to the empty
sequence, and the two-URL document's output is duplicate-free. -/
theorem extract_video_urls_spec_witness :
    extract_video_urls_from_html (fun _ u => u) ⟨[], [], [], []⟩ "p" = [] ∧
    (extract_video_urls_from_html (fun _ u => u) htmlPathTrap
      "https://www.alibaba.com/p").Nodup :=
  ⟨(extract_video_urls_spec (fun _ u => u) ⟨[], [], [], []⟩ "p").2.1 rfl,
   (extract_video_urls_spec (fun _ u => u) htmlPathTrap
     "https://www.alibaba.com/p").1⟩

/-- C10: the three URL-discovery strategies are strictly sequential
fallbacks — the global `<video>` scan contributes only when the structured
`div.react-dove-video video` selector found nothing, and the raw-text regex
scan only when both element scans found nothing; hence when a structured
video element provides a source, every output URL comes from the structured
scan. -/
theorem extract_strategies_fallback (join : String → String → String)
    (m : HtmlModel) (page_url : String) :
    (doveStrategyUrls m ≠ [] → foundUrls m = doveStrategyUrls m) ∧
    (doveStrategyUrls m = [] → globalStrategyUrls m ≠ [] →
      foundUrls m = globalStrategyUrls m) ∧
    (doveStrategyUrls m = [] → globalStrategyUrls m = [] →
      foundUrls m = rawStrategyUrls m) ∧
    (doveStrategyUrls m ≠ [] →
      ∀ v ∈ extract_video_urls_from_html join m page_url,
        ∃ raw ∈ doveStrategyUrls m, absolutize join raw page_url = v) := by
  refine ⟨?_, ?_, ?_, ?_⟩
  · intro h1
    simp only [foundUrls]
    rw [if_pos h1]
  · intro h1 h2
    simp only [foundUrls]
    rw [if_neg (fun hc => hc h1), if_pos h2]
  · intro h1 h2
    simp only [foundUrls]
    rw [if_neg (fun hc => hc h1), if_neg (fun hc => hc h2)]
  · intro h1 v hv
    have hf : foundUrls m = doveStrategyUrls m := by
      simp only [foundUrls]
      rw [if_pos h1]
    obtain ⟨raw, hraw, habs⟩ := (extract_mem_iff join m page_url v).mp hv
    rw [hf] at hraw
    exact ⟨raw, hraw, habs⟩

/-- A document where only the structured selector finds a video. -/
def htmlDoveOnly : HtmlModel :=
  ⟨[⟨some "https://cdn.x.com/v.mp4", []⟩], [⟨some "https://o.com/w.mp4", []⟩],
   ["https://raw.com/r.mp4"], []⟩

/-- A document where only the raw-text scan finds a URL. -/
def htmlRawOnly : HtmlModel :=
  ⟨[], [], ["https://raw.com/r.mp4"], []⟩

/-- Witness for C10: with a structured video present the found list is the
structured scan's, and with only raw-text matches it is the raw scan's. -/
theorem extract_strategies_fallback_witness :
    foundUrls htmlDoveOnly = doveStrategyUrls htmlDoveOnly ∧
    foundUrls htmlRawOnly = rawStrategyUrls htmlRawOnly :=
  ⟨(extract_strategies_fallback (fun _ u => u) htmlDoveOnly "p").1 (by decide),
   (extract_strategies_fallback (fun _ u => u) htmlRawOnly "p").2.2.1
     (by decide) (by decide)⟩
